import Mathlib

/-!
Verification of the Fossilize state-capture / archive core against its
natural-language specification.

The repository sources in scope are:
* `fossilize_external_replayer_control_block.hpp` — the cross-process ring
  buffer (`SharedControlBlock`, `shared_control_block_read`,
  `shared_control_block_write`), embedded faithfully below with `u32`
  arithmetic modelled as `Nat` arithmetic modulo `2^32`;
* the reference test program (`ReplayInterface`, `record_samplers`,
  `test_database`, `test_concurrent_database*`), whose checked behaviour pins
  down the recorder / archive semantics;
* the recorder, hasher and archive implementations themselves are not part of
  the provided sources; they are modelled from the specification, and every
  such definition is marked `Modelled from the spec:` in its doc comment.
-/

namespace Fossilize

/-! ## Shared control block ring buffer

Embedding of `fossilize_external_replayer_control_block.hpp`.  The struct's
progress counters and lock are irrelevant to the ring-buffer functions and are
omitted; the ring storage (which in C lives at `ring_buffer_offset` inside the
shared mapping) is represented directly as the list `ring`.  All counters are
`uint32_t` in C; arithmetic on them is modelled modulo `u32Mod = 2^32`.
-/

def u32Mod : Nat := 4294967296

/-- The C expression `a - b` on `uint32_t` values: wrap-around subtraction. -/
def sub32 (a b : Nat) : Nat := (a % u32Mod + u32Mod - b % u32Mod) % u32Mod

structure SharedControlBlock where
  write_count : Nat
  read_count : Nat
  read_offset : Nat
  write_offset : Nat
  ring_buffer_size : Nat
  ring : List Nat
deriving DecidableEq

/-- Embeds `shared_control_block_read_avail`: `write_count - read_count` in
`uint32_t` arithmetic. -/
def shared_control_block_read_avail (cb : SharedControlBlock) : Nat :=
  sub32 cb.write_count cb.read_count

/-- Embeds `shared_control_block_write_avail`. -/
def shared_control_block_write_avail (cb : SharedControlBlock) : Nat :=
  let max_capacity_write_count := (cb.read_count + cb.ring_buffer_size) % u32Mod
  if max_capacity_write_count ≤ cb.write_count then 0
  else max_capacity_write_count - cb.write_count

/-- The bytes delivered by `shared_control_block_read`'s two `memcpy` calls:
`read_first` bytes starting at `read_offset`, then the remainder from the
start of the ring. -/
def readData (cb : SharedControlBlock) (size : Nat) : List Nat :=
  let read_first := min (cb.ring_buffer_size - cb.read_offset) size
  ((List.range read_first).map fun i => cb.ring.getD (cb.read_offset + i) 0)
    ++ ((List.range (size - read_first)).map fun i => cb.ring.getD i 0)

/-- Embeds `shared_control_block_read`.  `none` models `return false`, which
in the C code happens before any mutation, so the caller's control block is
unchanged exactly when the result is `none`. -/
def shared_control_block_read (cb : SharedControlBlock) (size : Nat) :
    Option (List Nat × SharedControlBlock) :=
  if size > cb.ring_buffer_size then none
  else if size > sub32 cb.write_count cb.read_count then none
  else some (readData cb size,
    { cb with
      read_offset := (cb.read_offset + size) &&& (cb.ring_buffer_size - 1),
      read_count := (cb.read_count + size) % u32Mod })

/-- A `memcpy(dst + off, src, src.length)` on a byte array represented as a
list: the elements of `dst` from `off` to `off + src.length` are replaced by
`src`. -/
def blit (dst : List Nat) (off : Nat) (src : List Nat) : List Nat :=
  dst.take off ++ src ++ dst.drop (off + src.length)

/-- The ring contents after `shared_control_block_write`'s two `memcpy`
calls: `write_first` bytes at `write_offset`, the rest at the ring start. -/
def ringWrite (ring : List Nat) (off rbs : Nat) (data : List Nat) : List Nat :=
  let write_first := min (rbs - off) data.length
  blit (blit ring off (data.take write_first)) 0 (data.drop write_first)

/-- Embeds `shared_control_block_write`; `none` models `return false` (taken
before any mutation). -/
def shared_control_block_write (cb : SharedControlBlock) (data : List Nat) :
    Option SharedControlBlock :=
  if data.length > cb.ring_buffer_size then none
  else if (cb.write_count + data.length) % u32Mod
      > (cb.read_count + cb.ring_buffer_size) % u32Mod then none
  else some { cb with
    ring := ringWrite cb.ring cb.write_offset cb.ring_buffer_size data,
    write_offset := (cb.write_offset + data.length) &&& (cb.ring_buffer_size - 1),
    write_count := (cb.write_count + data.length) % u32Mod }

/-! ### List index helpers for the ring-buffer proofs -/

theorem getD_append_right_len (l l' : List Nat) (i : Nat) :
    (l ++ l').getD (l.length + i) 0 = l'.getD i 0 := by
  rw [List.getD_append_right l l' 0 (l.length + i) (Nat.le_add_right _ _)]
  congr 1
  omega

theorem getD_take (l : List Nat) (m i : Nat) (hi : i < m) :
    (l.take m).getD i 0 = l.getD i 0 := by
  induction l generalizing m i with
  | nil => simp
  | cons a t ih =>
    cases m with
    | zero => omega
    | succ m =>
      cases i with
      | zero => simp
      | succ i => simpa using ih m i (by omega)

theorem getD_drop (l : List Nat) (m i : Nat) :
    (l.drop m).getD i 0 = l.getD (m + i) 0 := by
  induction l generalizing m with
  | nil => simp
  | cons a t ih =>
    cases m with
    | zero => simp
    | succ m =>
      rw [List.drop_succ_cons, show m + 1 + i = (m + i) + 1 from by omega,
        List.getD_cons_succ]
      exact ih m

theorem blit_length (dst : List Nat) (off : Nat) (src : List Nat)
    (h : off + src.length ≤ dst.length) :
    (blit dst off src).length = dst.length := by
  simp only [blit, List.length_append, List.length_take, List.length_drop]
  omega

theorem blit_assoc (dst : List Nat) (off : Nat) (src : List Nat) :
    blit dst off src = dst.take off ++ (src ++ dst.drop (off + src.length)) := by
  simp [blit]

theorem blit_getD_mid (dst : List Nat) (off : Nat) (src : List Nat) (i : Nat)
    (h : off + src.length ≤ dst.length) (hi : i < src.length) :
    (blit dst off src).getD (off + i) 0 = src.getD i 0 := by
  have htk : (dst.take off).length = off := by
    simp only [List.length_take]
    omega
  calc (blit dst off src).getD (off + i) 0
      = ((dst.take off) ++ (src ++ dst.drop (off + src.length))).getD
          ((dst.take off).length + i) 0 := by rw [htk, blit_assoc]
    _ = (src ++ dst.drop (off + src.length)).getD i 0 := getD_append_right_len _ _ _
    _ = src.getD i 0 := List.getD_append _ _ _ _ hi

theorem blit_getD_right (dst : List Nat) (off : Nat) (src : List Nat) (j : Nat)
    (h : off + src.length ≤ dst.length) (hj : off + src.length ≤ j) :
    (blit dst off src).getD j 0 = dst.getD j 0 := by
  have htk : (dst.take off).length = off := by
    simp only [List.length_take]
    omega
  have h1 : (blit dst off src).getD j 0
      = (src ++ dst.drop (off + src.length)).getD (j - off) 0 := by
    have h2 : (dst.take off ++ (src ++ dst.drop (off + src.length))).getD
        ((dst.take off).length + (j - off)) 0
        = (src ++ dst.drop (off + src.length)).getD (j - off) 0 :=
      getD_append_right_len _ _ _
    rw [htk] at h2
    have hidx : off + (j - off) = j := by omega
    rw [hidx] at h2
    rw [blit_assoc]
    exact h2
  rw [h1, List.getD_append_right src _ 0 (j - off) (by omega), getD_drop]
  congr 1
  omega

theorem ringWrite_length (ring : List Nat) (off rbs : Nat) (data : List Nat)
    (hoff : off ≤ rbs) (hlen : data.length ≤ rbs) (hring : ring.length = rbs) :
    (ringWrite ring off rbs data).length = rbs := by
  simp only [ringWrite]
  rw [blit_length, blit_length]
  · exact hring
  · simp only [List.length_take]
    omega
  · rw [blit_length]
    · simp only [List.length_drop]
      omega
    · simp only [List.length_take]
      omega

theorem ringWrite_getD (ring : List Nat) (off rbs : Nat) (data : List Nat) (i : Nat)
    (hoff : off < rbs) (hlen : data.length ≤ rbs) (hring : ring.length = rbs)
    (hi : i < data.length) :
    (ringWrite ring off rbs data).getD ((off + i) % rbs) 0 = data.getD i 0 := by
  simp only [ringWrite]
  set wf := min (rbs - off) data.length with hwf
  have hwfle : wf ≤ data.length := by omega
  have htk : (data.take wf).length = wf := by
    simp only [List.length_take]
    omega
  have hdl : (data.drop wf).length = data.length - wf := by
    simp only [List.length_drop]
  have hb1len : (blit ring off (data.take wf)).length = rbs := by
    rw [blit_length]
    · exact hring
    · rw [htk, hring]
      omega
  by_cases hcase : i < wf
  · -- the byte lands in the first memcpy's region, at absolute index off + i
    have hlt : off + i < rbs := by omega
    rw [Nat.mod_eq_of_lt hlt]
    have hws : data.length - wf ≤ off + i := by omega
    rw [blit_getD_right _ 0 _ (off + i) (by rw [hb1len, hdl]; omega)
      (by rw [hdl]; omega)]
    rw [blit_getD_mid _ _ _ i (by rw [htk, hring]; omega) (by omega)]
    exact getD_take data wf i hcase
  · -- wrap-around: the byte lands in the second memcpy's region
    have hwfeq : wf = rbs - off := by omega
    have hge : off + i ≥ rbs := by omega
    have hlt2 : off + i < 2 * rbs := by omega
    have hmod : (off + i) % rbs = i - wf := by
      have : off + i - rbs < rbs := by omega
      rw [Nat.mod_eq_sub_mod hge, Nat.mod_eq_of_lt this]
      omega
    rw [hmod]
    have : (blit (blit ring off (data.take wf)) 0 (data.drop wf)).getD (0 + (i - wf)) 0
        = (data.drop wf).getD (i - wf) 0 := by
      apply blit_getD_mid
      · rw [hb1len, hdl]
        omega
      · rw [hdl]
        omega
    rw [Nat.zero_add] at this
    rw [this, getD_drop]
    congr 1
    omega

theorem readData_spec (cb : SharedControlBlock) (size : Nat)
    (hro : cb.read_offset < cb.ring_buffer_size)
    (hsz : size ≤ cb.ring_buffer_size) :
    readData cb size
      = (List.range size).map
          (fun i => cb.ring.getD ((cb.read_offset + i) % cb.ring_buffer_size) 0) := by
  simp only [readData]
  set rbs := cb.ring_buffer_size with hrbs
  set ro := cb.read_offset with hro2
  set rf := min (rbs - ro) size with hrf
  have hrfle : rf ≤ size := by omega
  have hsplit : size = rf + (size - rf) := by omega
  conv_rhs => rw [hsplit, List.range_add, List.map_append, List.map_map]
  congr 1
  · apply List.map_congr_left
    intro i hi
    have : i < rf := List.mem_range.mp hi
    have hlt : ro + i < rbs := by omega
    rw [Nat.mod_eq_of_lt hlt]
  · apply List.map_congr_left
    intro j hj
    have hjlt : j < size - rf := List.mem_range.mp hj
    have hrfeq : rf = rbs - ro := by omega
    have hjrbs : j < rbs := by omega
    simp only [Function.comp]
    have : ro + (rf + j) = rbs + j := by omega
    rw [this, Nat.add_mod_left, Nat.mod_eq_of_lt hjrbs]

theorem map_getD_range (l : List Nat) :
    (List.range l.length).map (fun i => l.getD i 0) = l := by
  induction l with
  | nil => simp
  | cons a t ih =>
    rw [List.length_cons, List.range_succ_eq_map, List.map_cons, List.map_map]
    have hc : ((fun i => (a :: t).getD i 0) ∘ Nat.succ) = fun i => t.getD i 0 := by
      funext i
      simp [Function.comp]
    rw [hc, ih]
    simp

/-- Claim C9: for a shared control block whose `ring_buffer_size` is a power
of two (fitting `u32`) and whose state satisfies
`write_count - read_count ≤ ring_buffer_size`,
`read_offset = read_count % ring_buffer_size` and
`write_offset = write_count % ring_buffer_size`, a successful
`shared_control_block_write` of `data` followed by a
`shared_control_block_read` of `data.length` bytes — after the previously
unread bytes are drained — returns exactly the bytes written, in FIFO order,
including the case where the data wraps around the end of the ring. -/
theorem write_then_read_returns_data
    (cb : SharedControlBlock) (data : List Nat) (k : Nat)
    (hk : k ≤ 32)
    (hpow : cb.ring_buffer_size = 2 ^ k)
    (hring : cb.ring.length = cb.ring_buffer_size)
    (hwcM : cb.write_count < u32Mod) (hrcM : cb.read_count < u32Mod)
    (hro : cb.read_offset = cb.read_count % cb.ring_buffer_size)
    (hwo : cb.write_offset = cb.write_count % cb.ring_buffer_size)
    (_hinv : sub32 cb.write_count cb.read_count ≤ cb.ring_buffer_size)
    (cb1 : SharedControlBlock)
    (hw : shared_control_block_write cb data = some cb1)
    (p : List Nat × SharedControlBlock)
    (hd : shared_control_block_read cb1 (shared_control_block_read_avail cb) = some p)
    (q : List Nat × SharedControlBlock)
    (hq : shared_control_block_read p.2 data.length = some q) :
    q.1 = data := by
  rw [shared_control_block_write] at hw
  split_ifs at hw with h1 h2
  injection hw with hw
  subst hw
  rw [shared_control_block_read] at hd
  split_ifs at hd with h3 h4
  injection hd with hd
  subst hd
  rw [shared_control_block_read] at hq
  split_ifs at hq with h5 h6
  injection hq with hq
  subst hq
  dsimp only at h5 h6 ⊢
  have hrbspos : 0 < cb.ring_buffer_size := by
    rw [hpow]
    exact Nat.pos_pow_of_pos k (by omega)
  have hlen : data.length ≤ cb.ring_buffer_size := by omega
  have hM : u32Mod = 2 ^ 32 := by norm_num [u32Mod]
  have hdvd : cb.ring_buffer_size ∣ u32Mod := by
    rw [hM, hpow]
    exact Nat.pow_dvd_pow 2 hk
  have hdiff : shared_control_block_read_avail cb
      = (cb.write_count + u32Mod - cb.read_count) % u32Mod := by
    rw [shared_control_block_read_avail, sub32,
      Nat.mod_eq_of_lt hwcM, Nat.mod_eq_of_lt hrcM]
  have key : (cb.read_offset + shared_control_block_read_avail cb) % cb.ring_buffer_size
      = cb.write_offset := by
    rw [hro, hwo, hdiff, Nat.mod_add_mod, Nat.add_mod cb.read_count,
      Nat.mod_mod_of_dvd _ hdvd, ← Nat.add_mod,
      show cb.read_count + (cb.write_count + u32Mod - cb.read_count)
        = cb.write_count + u32Mod from by omega]
    obtain ⟨c, hc⟩ := hdvd
    rw [hc, Nat.add_mul_mod_self_left]
  have hro2 : (cb.read_offset + shared_control_block_read_avail cb)
        &&& (cb.ring_buffer_size - 1) = cb.write_offset := by
    rw [hpow, Nat.and_pow_two_sub_one_eq_mod, ← hpow, key]
  rw [readData_spec]
  · dsimp only
    rw [hro2]
    have := map_getD_range data
    calc (List.range data.length).map
          (fun i => (ringWrite cb.ring cb.write_offset cb.ring_buffer_size data).getD
            ((cb.write_offset + i) % cb.ring_buffer_size) 0)
        = (List.range data.length).map (fun i => data.getD i 0) := by
          apply List.map_congr_left
          intro i hi
          exact ringWrite_getD cb.ring cb.write_offset cb.ring_buffer_size data i
            (hwo ▸ Nat.mod_lt _ hrbspos) hlen hring (List.mem_range.mp hi)
      _ = data := map_getD_range data
  · dsimp only
    rw [hro2, hwo]
    exact Nat.mod_lt _ hrbspos
  · dsimp only
    exact hlen

/-- Witness state for the FIFO round trip: counters at 3, offsets at 3, a
full wrap of the written bytes around the 4-byte ring. -/
def cbW : SharedControlBlock := ⟨3, 3, 3, 3, 4, [9, 9, 9, 9]⟩

def cbW1 : SharedControlBlock := ⟨6, 3, 3, 2, 4, [6, 7, 9, 5]⟩

def pW : List Nat × SharedControlBlock := ([], cbW1)

def qW : List Nat × SharedControlBlock := ([5, 6, 7], ⟨6, 6, 2, 2, 4, [6, 7, 9, 5]⟩)

/-- Witness for `write_then_read_returns_data`: writing `[5, 6, 7]` into the
4-byte ring at offset 3 wraps around the end; draining the (empty) backlog and
reading 3 bytes returns `[5, 6, 7]`. -/
theorem write_then_read_returns_data_witness :
    shared_control_block_write cbW [5, 6, 7] = some cbW1
    ∧ shared_control_block_read cbW1 (shared_control_block_read_avail cbW) = some pW
    ∧ shared_control_block_read pW.2 3 = some qW
    ∧ qW.1 = [5, 6, 7] :=
  ⟨by decide, by decide, by decide,
    write_then_read_returns_data cbW [5, 6, 7] 2 (by decide) (by decide) (by decide)
      (by decide) (by decide) (by decide) (by decide) (by decide)
      cbW1 (by decide) pW (by decide) qW (by decide)⟩

/-- Claim C10 (amended): `shared_control_block_read` rejects a read of more
bytes than are available or than `ring_buffer_size` (leaving the block
unchanged — in this embedding a rejected call returns `none` before any state
is produced), and any successful read preserves
`write_count - read_count ≤ ring_buffer_size` (computed in wrap-around `u32`
arithmetic).  For `shared_control_block_write` the same holds provided the
counters do not wrap during the call, i.e.
`read_count + 2 * ring_buffer_size < 2^32`: under that proviso the write
guard is exact — the write succeeds iff `data` fits and would not overrun
unread data — and every successful write preserves the invariant.  Without
the proviso the guard mis-compares near counter wrap-around
(`control_block_write_wraparound_cex`). -/
theorem control_block_guard_and_invariant :
    (∀ (cb : SharedControlBlock) (size : Nat),
        cb.ring_buffer_size < size ∨ shared_control_block_read_avail cb < size →
        shared_control_block_read cb size = none)
    ∧ (∀ (cb : SharedControlBlock) (size : Nat) (p : List Nat × SharedControlBlock),
        shared_control_block_read cb size = some p →
        sub32 cb.write_count cb.read_count ≤ cb.ring_buffer_size →
        sub32 p.2.write_count p.2.read_count ≤ p.2.ring_buffer_size)
    ∧ (∀ (cb : SharedControlBlock) (data : List Nat),
        cb.write_count < u32Mod → cb.read_count < u32Mod →
        cb.read_count + 2 * cb.ring_buffer_size < u32Mod →
        sub32 cb.write_count cb.read_count ≤ cb.ring_buffer_size →
        ((shared_control_block_write cb data).isSome = true ↔
          data.length ≤ cb.ring_buffer_size ∧
          sub32 cb.write_count cb.read_count + data.length ≤ cb.ring_buffer_size))
    ∧ (∀ (cb : SharedControlBlock) (data : List Nat) (cb2 : SharedControlBlock),
        cb.write_count < u32Mod → cb.read_count < u32Mod →
        cb.read_count + 2 * cb.ring_buffer_size < u32Mod →
        sub32 cb.write_count cb.read_count ≤ cb.ring_buffer_size →
        shared_control_block_write cb data = some cb2 →
        sub32 cb2.write_count cb2.read_count ≤ cb2.ring_buffer_size) := by
  refine ⟨?_, ?_, ?_, ?_⟩
  · intro cb size hbad
    rw [shared_control_block_read]
    rcases hbad with hbad | hbad
    · rw [if_pos (by omega)]
    · rw [shared_control_block_read_avail] at hbad
      by_cases hfirst : size > cb.ring_buffer_size
      · rw [if_pos hfirst]
      · rw [if_neg hfirst, if_pos (by omega)]
  · intro cb size p hread hinv
    rw [shared_control_block_read] at hread
    split_ifs at hread with h1 h2
    injection hread with hread
    subst hread
    dsimp only
    simp only [sub32, u32Mod] at *
    omega
  · intro cb data hwcM hrcM hnowrap hinv
    rw [shared_control_block_write]
    split_ifs with h1 h2
    · simp only [Option.isSome_none, Bool.false_eq_true, false_iff]
      omega
    · simp only [Option.isSome_none, Bool.false_eq_true, false_iff]
      simp only [sub32, u32Mod] at *
      intro hcon
      omega
    · simp only [Option.isSome_some, true_iff]
      simp only [sub32, u32Mod] at *
      omega
  · intro cb data cb2 hwcM hrcM hnowrap hinv hwrite
    rw [shared_control_block_write] at hwrite
    split_ifs at hwrite with h1 h2
    injection hwrite with hwrite
    subst hwrite
    dsimp only
    simp only [sub32, u32Mod] at *
    omega

/-- Witness for `control_block_guard_and_invariant`: a concrete successful
write on a quarter-full 4-byte ring keeps the unread-byte count within
bounds. -/
theorem control_block_guard_and_invariant_witness :
    shared_control_block_write ⟨1, 0, 0, 1, 4, [5, 0, 0, 0]⟩ [6, 7]
      = some ⟨3, 0, 0, 3, 4, [5, 6, 7, 0]⟩
    ∧ sub32 3 0 ≤ 4 :=
  ⟨by decide,
    control_block_guard_and_invariant.2.2.2 ⟨1, 0, 0, 1, 4, [5, 0, 0, 0]⟩ [6, 7]
      ⟨3, 0, 0, 3, 4, [5, 6, 7, 0]⟩ (by decide) (by decide) (by decide) (by decide)
      (by decide)⟩

/-- A state with wrapped `u32` counters: `read_count = 2^32 - 7`,
`write_count = 2^32 - 3`, a full 4-byte ring, offsets consistent with the
counters. -/
def cbWrap : SharedControlBlock := ⟨4294967293, 4294967289, 1, 1, 4, [0, 0, 0, 0]⟩

def cbWrapAfter : SharedControlBlock := ⟨1, 4294967289, 1, 1, 4, [4, 1, 2, 3]⟩

/-- Counterexample to claim C10 as stated: `cbWrap` satisfies the invariant
`write_count - read_count ≤ ring_buffer_size` (the ring is exactly full, so a
4-byte write should be refused), yet `shared_control_block_write` accepts the
write because its guard compares wrapped values, and the invariant is broken
afterwards: the unread-byte count becomes 8 > 4 and the 4 unread bytes were
overwritten. -/
theorem control_block_write_wraparound_cex :
    sub32 cbWrap.write_count cbWrap.read_count ≤ cbWrap.ring_buffer_size
    ∧ cbWrap.read_offset = cbWrap.read_count % cbWrap.ring_buffer_size
    ∧ cbWrap.write_offset = cbWrap.write_count % cbWrap.ring_buffer_size
    ∧ shared_control_block_write cbWrap [1, 2, 3, 4] = some cbWrapAfter
    ∧ ¬ sub32 cbWrapAfter.write_count cbWrapAfter.read_count
        ≤ cbWrapAfter.ring_buffer_size := by
  refine ⟨by decide, by decide, by decide, by decide, by decide⟩

/-! ## Recorder and hashers

The `StateRecorder` and `Fossilize::Hashing` implementations are not among
the provided sources; only their callers (the reference test and
`ReplayInterface`) are.  The definitions below model them from the
specification (sections 3, 4.1 and 4.2): one intern table per resource kind
mapping a 64-bit content hash to the canonical descriptor, first insert wins,
failure leaves the tables unchanged.
-/

/-- The nine resource kinds of the data model (spec section 3). -/
inductive ResourceKind where
  | sampler
  | descriptorSetLayout
  | pipelineLayout
  | shaderModule
  | renderPass
  | computePipeline
  | graphicsPipeline
  | applicationInfo
  | physicalDeviceFeatures
deriving DecidableEq

/-- An intern table: an association list from content hash to canonical
descriptor, in insertion order. -/
abbrev InternTable (Desc : Type) : Type := List (Nat × Desc)

/-- A recorder state: one intern table per resource kind.  `Desc` is the type
of canonical descriptors. -/
abbrev Recorder (Desc : Type) : Type := ResourceKind → InternTable Desc

def emptyRecorder (Desc : Type) : Recorder Desc := fun _ => []

def internHas {Desc : Type} (tbl : InternTable Desc) (h : Nat) : Bool :=
  tbl.any fun e => decide (e.1 = h)

/-- Modelled from the spec: insertion into an intern table — "First insert
wins; subsequent inserts with the same hash are no-ops." -/
def internInsert {Desc : Type} (tbl : InternTable Desc) (h : Nat) (d : Desc) :
    InternTable Desc :=
  if internHas tbl h then tbl else tbl ++ [(h, d)]

def updateTable {Desc : Type} (r : Recorder Desc) (k : ResourceKind)
    (tbl : InternTable Desc) : Recorder Desc :=
  fun j => if j = k then tbl else r j

/-- Modelled from the spec: the record-side `StateRecorder::record_*`
operation — "Computes hash and interns the canonical form under that hash.
Returns success/failure; failure leaves the table unchanged."  The hasher is
a parameter, since the hashing implementation is also not among the sources;
it returns `none` on a structural error. -/
def recordRaw {Desc : Type} (hasher : ResourceKind → Desc → Option Nat)
    (r : Recorder Desc) (k : ResourceKind) (d : Desc) :
    Option (Nat × Recorder Desc) :=
  match hasher k d with
  | none => none
  | some h => some (h, updateTable r k (internInsert (r k) h d))

/-- Embeds `ReplayInterface::enqueue_create_*` from the reference test:
recompute the hash of the delivered descriptor, fail unless it matches the
expected hash from the payload, then record it under that hash. -/
def enqueueCreate {Desc : Type} (hasher : ResourceKind → Desc → Option Nat)
    (r : Recorder Desc) (k : ResourceKind) (h : Nat) (d : Desc) :
    Option (Recorder Desc) :=
  match recordRaw hasher r k d with
  | none => none
  | some (h2, r2) => if h2 = h then some r2 else none

/-- A recorder call: either a replay-side `enqueue_create_*` with an expected
hash, or a record-side `record_*`. -/
inductive RecOp (Desc : Type) where
  | enqueue (k : ResourceKind) (h : Nat) (d : Desc)
  | record (k : ResourceKind) (d : Desc)

/-- One call; a failed call leaves the recorder unchanged (the test aborts on
unexpected failures, the replayer skips the object and continues). -/
def applyOp {Desc : Type} (hasher : ResourceKind → Desc → Option Nat)
    (r : Recorder Desc) : RecOp Desc → Recorder Desc
  | RecOp.enqueue k h d =>
    match enqueueCreate hasher r k h d with
    | none => r
    | some r2 => r2
  | RecOp.record k d =>
    match recordRaw hasher r k d with
    | none => r
    | some (_, r2) => r2

def runOps {Desc : Type} (hasher : ResourceKind → Desc → Option Nat)
    (ops : List (RecOp Desc)) (r : Recorder Desc) : Recorder Desc :=
  ops.foldl (applyOp hasher) r

/-- Every `(hash, descriptor)` entry of every intern table re-hashes to its
key. -/
def tableOk {Desc : Type} (hasher : ResourceKind → Desc → Option Nat)
    (r : Recorder Desc) : Prop :=
  ∀ k h d, (h, d) ∈ r k → hasher k d = some h

/-- Per-kind intern-table keys are pairwise distinct. -/
def keysNodup {Desc : Type} (r : Recorder Desc) : Prop :=
  ∀ k, ((r k).map Prod.fst).Nodup

theorem internHas_iff {Desc : Type} (tbl : InternTable Desc) (h : Nat) :
    internHas tbl h = true ↔ ∃ d, (h, d) ∈ tbl := by
  unfold internHas
  rw [List.any_eq_true]
  constructor
  · rintro ⟨⟨h1, d1⟩, hmem, he⟩
    have he2 : h1 = h := of_decide_eq_true he
    subst he2
    exact ⟨d1, hmem⟩
  · rintro ⟨d, hmem⟩
    exact ⟨(h, d), hmem, by simp⟩

theorem mem_internInsert {Desc : Type} (tbl : InternTable Desc)
    (h h2 : Nat) (d d2 : Desc) (hmem : (h2, d2) ∈ internInsert tbl h d) :
    (h2, d2) ∈ tbl ∨ ((h2, d2) = (h, d) ∧ internHas tbl h = false) := by
  unfold internInsert at hmem
  by_cases hc : internHas tbl h = true
  · rw [if_pos hc] at hmem
    exact Or.inl hmem
  · rw [if_neg hc] at hmem
    rcases List.mem_append.mp hmem with hmem | hmem
    · exact Or.inl hmem
    · refine Or.inr ⟨List.mem_singleton.mp hmem, by simpa using hc⟩

theorem tableOk_updateTable {Desc : Type} {hasher : ResourceKind → Desc → Option Nat}
    {r : Recorder Desc} {k : ResourceKind} {h : Nat} {d : Desc}
    (hok : tableOk hasher r) (hh : hasher k d = some h) :
    tableOk hasher (updateTable r k (internInsert (r k) h d)) := by
  intro j h2 d2 hmem
  unfold updateTable at hmem
  by_cases hj : j = k
  · subst hj
    rw [if_pos rfl] at hmem
    rcases mem_internInsert _ _ _ _ _ hmem with hmem2 | ⟨heq, _⟩
    · exact hok j h2 d2 hmem2
    · injection heq with e1 e2
      subst e1
      subst e2
      exact hh
  · rw [if_neg hj] at hmem
    exact hok j h2 d2 hmem

theorem tableOk_applyOp {Desc : Type} {hasher : ResourceKind → Desc → Option Nat}
    {r : Recorder Desc} (hok : tableOk hasher r) (op : RecOp Desc) :
    tableOk hasher (applyOp hasher r op) := by
  cases op with
  | enqueue k h d =>
    simp only [applyOp, enqueueCreate, recordRaw]
    cases hh : hasher k d with
    | none => exact hok
    | some h2 =>
      by_cases hc : h2 = h
      · simp only [hc, if_pos rfl]
        exact tableOk_updateTable hok (hc ▸ hh)
      · simp only [if_neg hc]
        exact hok
  | record k d =>
    simp only [applyOp, recordRaw]
    cases hh : hasher k d with
    | none => exact hok
    | some h2 => exact tableOk_updateTable hok hh

theorem tableOk_runOps {Desc : Type} (hasher : ResourceKind → Desc → Option Nat)
    (ops : List (RecOp Desc)) :
    ∀ (r : Recorder Desc), tableOk hasher r → tableOk hasher (runOps hasher ops r) := by
  induction ops with
  | nil => exact fun r hok => hok
  | cons op t ih =>
    intro r hok
    exact ih (applyOp hasher r op) (tableOk_applyOp hok op)

theorem tableOk_empty {Desc : Type} (hasher : ResourceKind → Desc → Option Nat) :
    tableOk hasher (emptyRecorder Desc) := by
  intro k h d hmem
  exact absurd hmem (List.not_mem_nil _)

theorem mem_keys_iff {Desc : Type} (tbl : InternTable Desc) (h : Nat) :
    h ∈ tbl.map Prod.fst ↔ internHas tbl h = true := by
  rw [internHas_iff]
  constructor
  · intro hm
    obtain ⟨⟨h1, d1⟩, hmem, he⟩ := List.mem_map.mp hm
    dsimp at he
    subst he
    exact ⟨d1, hmem⟩
  · rintro ⟨d, hmem⟩
    exact List.mem_map.mpr ⟨(h, d), hmem, rfl⟩

theorem keys_nodup_internInsert {Desc : Type} (tbl : InternTable Desc)
    (h : Nat) (d : Desc) (hnd : (tbl.map Prod.fst).Nodup) :
    ((internInsert tbl h d).map Prod.fst).Nodup := by
  unfold internInsert
  by_cases hc : internHas tbl h = true
  · rw [if_pos hc]
    exact hnd
  · rw [if_neg hc, List.map_append]
    rw [List.nodup_append]
    refine ⟨hnd, List.nodup_singleton _, ?_⟩
    intro a ha hb
    simp only [List.map_cons, List.map_nil, List.mem_singleton] at hb
    rw [hb] at ha
    exact hc ((mem_keys_iff tbl h).mp ha)

theorem keysNodup_updateTable {Desc : Type} {r : Recorder Desc} {k : ResourceKind}
    {h : Nat} {d : Desc} (hnd : keysNodup r) :
    keysNodup (updateTable r k (internInsert (r k) h d)) := by
  intro j
  unfold updateTable
  by_cases hj : j = k
  · subst hj
    rw [if_pos rfl]
    exact keys_nodup_internInsert _ _ _ (hnd j)
  · rw [if_neg hj]
    exact hnd j

theorem keysNodup_applyOp {Desc : Type} {hasher : ResourceKind → Desc → Option Nat}
    {r : Recorder Desc} (hnd : keysNodup r) (op : RecOp Desc) :
    keysNodup (applyOp hasher r op) := by
  cases op with
  | enqueue k h d =>
    simp only [applyOp, enqueueCreate, recordRaw]
    cases hh : hasher k d with
    | none => exact hnd
    | some h2 =>
      by_cases hc : h2 = h
      · simp only [hc, if_pos rfl]
        exact keysNodup_updateTable hnd
      · simp only [if_neg hc]
        exact hnd
  | record k d =>
    simp only [applyOp, recordRaw]
    cases hh : hasher k d with
    | none => exact hnd
    | some h2 => exact keysNodup_updateTable hnd

theorem keysNodup_runOps {Desc : Type} (hasher : ResourceKind → Desc → Option Nat)
    (ops : List (RecOp Desc)) :
    ∀ (r : Recorder Desc), keysNodup r → keysNodup (runOps hasher ops r) := by
  induction ops with
  | nil => exact fun r hnd => hnd
  | cons op t ih =>
    intro r hnd
    exact ih (applyOp hasher r op) (keysNodup_applyOp hnd op)

theorem keysNodup_empty (Desc : Type) : keysNodup (emptyRecorder Desc) := by
  intro k
  exact List.nodup_nil

/-- A trivial hasher over `Nat` descriptors, used to instantiate witnesses. -/
def natHasher : ResourceKind → Nat → Option Nat := fun _ d => some d

/-- Claim C1: a successful `record_X` / `enqueue_create_X` call associates a
descriptor with exactly its recomputed content hash, and consequently every
entry `(hash, descriptor)` of every reachable intern table satisfies
`hasher descriptor = hash`. -/
theorem record_hash_invariant :
    ∀ (Desc : Type) (hasher : ResourceKind → Desc → Option Nat),
      (∀ (r : Recorder Desc) (k : ResourceKind) (h : Nat) (d : Desc)
          (r2 : Recorder Desc),
        enqueueCreate hasher r k h d = some r2 → hasher k d = some h)
      ∧ (∀ (r : Recorder Desc) (k : ResourceKind) (d : Desc) (h : Nat)
          (r2 : Recorder Desc),
        recordRaw hasher r k d = some (h, r2) → hasher k d = some h)
      ∧ (∀ (ops : List (RecOp Desc)) (k : ResourceKind) (h : Nat) (d : Desc),
        (h, d) ∈ runOps hasher ops (emptyRecorder Desc) k → hasher k d = some h) := by
  intro Desc hasher
  refine ⟨?_, ?_, ?_⟩
  · intro r k h d r2 henq
    unfold enqueueCreate recordRaw at henq
    cases hh : hasher k d with
    | none =>
      rw [hh] at henq
      exact absurd henq (by simp)
    | some h2 =>
      rw [hh] at henq
      simp only [] at henq
      split_ifs at henq with hc
      subst hc
      rfl
  · intro r k d h r2 hrec
    unfold recordRaw at hrec
    cases hh : hasher k d with
    | none =>
      rw [hh] at hrec
      exact absurd hrec (by simp)
    | some h2 =>
      rw [hh] at hrec
      simp only [Option.some.injEq, Prod.mk.injEq] at hrec
      obtain ⟨e1, _⟩ := hrec
      subst e1
      rfl
  · intro ops k h d hmem
    exact tableOk_runOps hasher ops (emptyRecorder Desc) (tableOk_empty hasher) k h d hmem

/-- Witness for `record_hash_invariant`: after recording the descriptor `5`
(whose hash under `natHasher` is `5`), the sampler table holds `(5, 5)` and
the invariant instance is delivered by the theorem. -/
theorem record_hash_invariant_witness :
    (5, 5) ∈ runOps natHasher [RecOp.record ResourceKind.sampler 5]
        (emptyRecorder Nat) ResourceKind.sampler
    ∧ natHasher ResourceKind.sampler 5 = some 5 :=
  ⟨by decide,
    (record_hash_invariant Nat natHasher).2.2 [RecOp.record ResourceKind.sampler 5]
      ResourceKind.sampler 5 5 (by decide)⟩

/-! ## Serialization round trip (claim C2) -/

/-- The fixed kind order of the serialized document: the singletons first,
then the kinds in the dependency order of spec section 3 (the replayer
delivers objects in this topological order). -/
def kindList : List ResourceKind :=
  [ResourceKind.applicationInfo, ResourceKind.physicalDeviceFeatures,
   ResourceKind.sampler, ResourceKind.descriptorSetLayout,
   ResourceKind.pipelineLayout, ResourceKind.shaderModule,
   ResourceKind.renderPass, ResourceKind.computePipeline,
   ResourceKind.graphicsPipeline]

/-- Modelled from the spec: `StateRecorder::serialize` — "emits the entire
interned state in a defined textual format"; "Serialization MUST be
deterministic".  The document is modelled at the level of the
`(kind, hash, canonical descriptor)` triples it carries, one array per
resource kind, in intern order. -/
def serialize {Desc : Type} (r : Recorder Desc) : List (ResourceKind × Nat × Desc) :=
  (kindList.map fun k => (r k).map fun e => (k, e.1, e.2)).flatten

/-- Modelled from the spec: `StateReplayer::parse` driving the
`ReplayInterface` sink of the reference test — each delivered object is
re-hashed, checked against its expected hash and re-recorded into a fresh
recorder (`enqueueCreate`); a rejected object is skipped and delivery
continues. -/
def parse {Desc : Type} (hasher : ResourceKind → Desc → Option Nat)
    (doc : List (ResourceKind × Nat × Desc)) : Recorder Desc :=
  runOps hasher (doc.map fun t => RecOp.enqueue t.1 t.2.1 t.2.2) (emptyRecorder Desc)

theorem runOps_append {Desc : Type} (hasher : ResourceKind → Desc → Option Nat)
    (l1 l2 : List (RecOp Desc)) (r : Recorder Desc) :
    runOps hasher (l1 ++ l2) r = runOps hasher l2 (runOps hasher l1 r) :=
  List.foldl_append _ _ _ _

theorem updateTable_apply_self {Desc : Type} (r : Recorder Desc)
    (k : ResourceKind) (tbl : InternTable Desc) :
    updateTable r k tbl k = tbl := by
  unfold updateTable
  rw [if_pos rfl]

theorem updateTable_apply_ne {Desc : Type} (r : Recorder Desc)
    (k j : ResourceKind) (tbl : InternTable Desc) (hj : j ≠ k) :
    updateTable r k tbl j = r j := by
  unfold updateTable
  rw [if_neg hj]

theorem updateTable_self {Desc : Type} (r : Recorder Desc) (k : ResourceKind) :
    updateTable r k (r k) = r := by
  funext j
  unfold updateTable
  by_cases hj : j = k
  · rw [if_pos hj, hj]
  · rw [if_neg hj]

theorem updateTable_updateTable {Desc : Type} (r : Recorder Desc)
    (k : ResourceKind) (a b : InternTable Desc) :
    updateTable (updateTable r k a) k b = updateTable r k b := by
  funext j
  unfold updateTable
  by_cases hj : j = k
  · rw [if_pos hj, if_pos hj]
  · rw [if_neg hj, if_neg hj, if_neg hj]

theorem applyOp_enqueue_hash_match {Desc : Type}
    (hasher : ResourceKind → Desc → Option Nat) (r : Recorder Desc)
    (k : ResourceKind) (h : Nat) (d : Desc) (hh : hasher k d = some h) :
    applyOp hasher r (RecOp.enqueue k h d)
      = updateTable r k (internInsert (r k) h d) := by
  simp only [applyOp, enqueueCreate, recordRaw, hh, if_pos rfl, if_true]

theorem replay_segment {Desc : Type} (hasher : ResourceKind → Desc → Option Nat)
    (k : ResourceKind) (tbl : InternTable Desc) :
    ∀ (r : Recorder Desc),
      (∀ h d, (h, d) ∈ tbl → hasher k d = some h) →
      ((r k).map Prod.fst ++ tbl.map Prod.fst).Nodup →
      runOps hasher (tbl.map fun e => RecOp.enqueue k e.1 e.2) r
        = updateTable r k (r k ++ tbl) := by
  induction tbl with
  | nil =>
    intro r _ _
    rw [List.map_nil, List.append_nil, updateTable_self]
    rfl
  | cons e t ih =>
    intro r hok hnd
    obtain ⟨h, d⟩ := e
    have hh : hasher k d = some h := hok h d (List.mem_cons_self _ _)
    have hnotin : internHas (r k) h = false := by
      rw [List.map_cons] at hnd
      have hdisj := (List.nodup_append.mp hnd).2.2
      by_cases hc : internHas (r k) h = true
      · exact absurd (List.mem_cons_self _ _)
          (hdisj ((mem_keys_iff (r k) h).mpr hc))
      · simpa using hc
    have hstep : applyOp hasher r (RecOp.enqueue k h d)
        = updateTable r k (r k ++ [(h, d)]) := by
      rw [applyOp_enqueue_hash_match hasher r k h d hh]
      unfold internInsert
      rw [hnotin]
      rfl
    have hrun : runOps hasher (((h, d) :: t).map fun e => RecOp.enqueue k e.1 e.2) r
        = runOps hasher (t.map fun e => RecOp.enqueue k e.1 e.2)
            (updateTable r k (r k ++ [(h, d)])) := by
      rw [List.map_cons]
      show runOps hasher (t.map fun e => RecOp.enqueue k e.1 e.2)
          (applyOp hasher r (RecOp.enqueue k h d)) = _
      rw [hstep]
    rw [hrun, ih (updateTable r k (r k ++ [(h, d)]))]
    · rw [updateTable_updateTable, updateTable_apply_self, List.append_assoc]
      rfl
    · intro h2 d2 hmem
      exact hok h2 d2 (List.mem_cons_of_mem _ hmem)
    · rw [updateTable_apply_self, List.map_append, List.append_assoc,
        List.map_cons] at *
      simpa using hnd

theorem replay_segments {Desc : Type} (hasher : ResourceKind → Desc → Option Nat)
    (R : Recorder Desc) :
    ∀ (ks : List ResourceKind) (r : Recorder Desc),
      ks.Nodup →
      (∀ k, k ∈ ks → ∀ h d, (h, d) ∈ R k → hasher k d = some h) →
      (∀ k, k ∈ ks → ((R k).map Prod.fst).Nodup) →
      (∀ k, k ∈ ks → r k = []) →
      ∀ j, runOps hasher
          ((ks.map fun k => (R k).map fun e => RecOp.enqueue k e.1 e.2).flatten) r j
        = if j ∈ ks then R j else r j := by
  intro ks
  induction ks with
  | nil =>
    intro r _ _ _ _ j
    simp [runOps]
  | cons k ks ih =>
    intro r hnd hok hkeys hempty j
    have hkhead : k ∈ k :: ks := List.mem_cons_self _ _
    have hktail : k ∉ ks := (List.nodup_cons.mp hnd).1
    rw [List.map_cons, List.flatten_cons, runOps_append]
    have hseg : runOps hasher ((R k).map fun e => RecOp.enqueue k e.1 e.2) r
        = updateTable r k (R k) := by
      rw [replay_segment hasher k (R k) r (hok k hkhead)
        (by rw [hempty k hkhead]; simpa using hkeys k hkhead)]
      rw [hempty k hkhead, List.nil_append]
    rw [hseg]
    have hres := ih (updateTable r k (R k)) (List.nodup_cons.mp hnd).2
      (fun k2 hk2 => hok k2 (List.mem_cons_of_mem _ hk2))
      (fun k2 hk2 => hkeys k2 (List.mem_cons_of_mem _ hk2))
      (fun k2 hk2 => by
        rw [updateTable_apply_ne r k k2 (R k) (fun he => hktail (he ▸ hk2))]
        exact hempty k2 (List.mem_cons_of_mem _ hk2)) j
    rw [hres]
    by_cases hjks : j ∈ ks
    · rw [if_pos hjks, if_pos (List.mem_cons_of_mem _ hjks)]
    · rw [if_neg hjks]
      by_cases hjk : j = k
      · subst hjk
        rw [updateTable_apply_self, if_pos hkhead]
      · rw [updateTable_apply_ne r k j (R k) hjk,
          if_neg (fun hm => (List.mem_cons.mp hm).elim hjk hjks)]

/-- Claim C2: serializing a reachable recorder state and parsing the result
with the replayer (which re-hashes and re-records every delivered descriptor
into a fresh recorder) reconstructs an equivalent recorder state — the per
kind intern tables are reproduced exactly, so the set of
`(kind, hash, canonical descriptor)` triples is the same. -/
theorem serialize_parse_roundtrip :
    ∀ (Desc : Type) (hasher : ResourceKind → Desc → Option Nat)
      (ops : List (RecOp Desc)) (k : ResourceKind),
      parse hasher (serialize (runOps hasher ops (emptyRecorder Desc))) k
        = runOps hasher ops (emptyRecorder Desc) k
      ∧ ∀ (h : Nat) (d : Desc),
          ((h, d) ∈ parse hasher (serialize (runOps hasher ops (emptyRecorder Desc))) k
           ↔ (h, d) ∈ runOps hasher ops (emptyRecorder Desc) k) := by
  intro Desc hasher ops k
  have hok := tableOk_runOps hasher ops (emptyRecorder Desc) (tableOk_empty hasher)
  have hkeys := keysNodup_runOps hasher ops (emptyRecorder Desc) (keysNodup_empty Desc)
  have hdoc : (serialize (runOps hasher ops (emptyRecorder Desc))).map
        (fun t => RecOp.enqueue t.1 t.2.1 t.2.2)
      = (kindList.map fun k2 => (runOps hasher ops (emptyRecorder Desc) k2).map
          fun e => RecOp.enqueue k2 e.1 e.2).flatten := by
    rw [serialize, List.map_flatten, List.map_map]
    apply congrArg List.flatten
    apply List.map_congr_left
    intro k2 _
    simp only [Function.comp_def, List.map_map]
  have hk : k ∈ kindList := by cases k <;> decide
  have hmain := replay_segments hasher (runOps hasher ops (emptyRecorder Desc))
    kindList (emptyRecorder Desc) (by decide)
    (fun k2 _ => hok k2) (fun k2 _ => hkeys k2) (fun k2 _ => rfl) k
  rw [if_pos hk] at hmain
  have heq : parse hasher (serialize (runOps hasher ops (emptyRecorder Desc))) k
      = runOps hasher ops (emptyRecorder Desc) k := by
    rw [parse, hdoc]
    exact hmain
  exact ⟨heq, fun h d => by rw [heq]⟩

/-! ## Samplers (claims C5 and C6)

The sampler descriptor and its hasher are modelled from the specification;
float-valued fields (`mipLodBias`, `maxAnisotropy`, `minLod`, `maxLod`) are
represented by their 32-bit IEEE-754 bit patterns, which is what a stable
content hash folds over.
-/

/-- The canonical sampler descriptor (the hashed fields of
`VkSamplerCreateInfo`), with the `pNext` extension chain as the list of its
structure-type tags. -/
structure SamplerCreateInfo where
  flags : Nat
  magFilter : Nat
  minFilter : Nat
  mipmapMode : Nat
  addressModeU : Nat
  addressModeV : Nat
  addressModeW : Nat
  mipLodBias : Nat
  anisotropyEnable : Nat
  maxAnisotropy : Nat
  compareEnable : Nat
  compareOp : Nat
  minLod : Nat
  maxLod : Nat
  borderColor : Nat
  unnormalizedCoordinates : Nat
  pNext : List Nat
deriving DecidableEq

def hash64Mod : Nat := 18446744073709551616

/-- Modelled from the spec: one step of the 64-bit content-hash fold (an
FNV-style combine; the spec fixes only that the hash is a deterministic pure
function of the canonical field sequence). -/
def hashCombine (h x : Nat) : Nat := (h * 1099511628211 + x) % hash64Mod

/-- Modelled from the spec: the set of sampler `pNext` extension structure
types the hasher recognizes.  The specification names none as supported for
samplers, and the reference test's YCbCr-conversion / reduction-mode chain
must be rejected as `UnsupportedExtension`. -/
def samplerExtensionSupported (_sType : Nat) : Bool := false

/-- Modelled from the spec: `Fossilize::Hashing::compute_hash_sampler` — a
deterministic 64-bit content hash over the canonical field order, failing
with `none` when the extension chain holds an unrecognized structure type
("An unrecognized extension in the chain is an error"). -/
def compute_hash_sampler (s : SamplerCreateInfo) : Option Nat :=
  if s.pNext.all samplerExtensionSupported then
    some ([s.flags, s.magFilter, s.minFilter, s.mipmapMode, s.addressModeU,
      s.addressModeV, s.addressModeW, s.mipLodBias, s.anisotropyEnable,
      s.maxAnisotropy, s.compareEnable, s.compareOp, s.minLod, s.maxLod,
      s.borderColor, s.unnormalizedCoordinates].foldl hashCombine
      14695981039346656037)
  else none

def samplerHasher : ResourceKind → SamplerCreateInfo → Option Nat :=
  fun _ s => compute_hash_sampler s

/-- Modelled from the spec: `StateRecorder::record_sampler(handle, info)` as
exercised by the reference test — computes the content hash of `info`,
interns the canonical form under that hash, and returns the C++ `bool`
together with the (unchanged, on failure) recorder.  The integer handle does
not participate in hashing or interning of the sampler itself. -/
def record_sampler (r : Recorder SamplerCreateInfo) (_handle : Nat)
    (s : SamplerCreateInfo) : Bool × Recorder SamplerCreateInfo :=
  match recordRaw samplerHasher r ResourceKind.sampler s with
  | none => (false, r)
  | some (_, r2) => (true, r2)

/-- Claim C5: a sampler whose `pNext` chain contains a record with an
unrecognized structure type is rejected by `record_sampler`, and the
recorder's intern tables are exactly the same after the failed call as
before it. -/
theorem record_sampler_rejects_unknown_extension :
    ∀ (r : Recorder SamplerCreateInfo) (hd t : Nat) (s : SamplerCreateInfo),
      t ∈ s.pNext → samplerExtensionSupported t = false →
      record_sampler r hd s = (false, r) := by
  intro r hd t s hmem hunsup
  have hall : s.pNext.all samplerExtensionSupported = false := by
    rw [List.all_eq_false]
    exact ⟨t, hmem, by rw [hunsup]; exact Bool.false_ne_true⟩
  have hnone : compute_hash_sampler s = none := by
    rw [compute_hash_sampler]
    simp [hall]
  simp only [record_sampler, recordRaw, samplerHasher, hnone]

/-- The sampler recorded by the reference test (`record_samplers`):
`minLod = 10.0`, `maxLod = 20.0`, `mipLodBias = 90.0`, `maxAnisotropy = 30.0`
(float fields as IEEE-754 bit patterns), clamp-to-border / clamp-to-edge /
mirror-clamp-to-edge address modes, compare op `EQUAL`, nearest mag filter,
linear min filter and mipmap mode, white float border colour, unnormalized
coordinates, empty extension chain. -/
def sampler10 : SamplerCreateInfo :=
  ⟨0, 0, 1, 1, 3, 2, 4, 1119092736, 0, 1106247680, 1, 2, 1092616192,
   1101004800, 4, 1, []⟩

/-- `sampler10` with `minLod = 11.0` (bit pattern `0x41300000`). -/
def sampler11 : SamplerCreateInfo :=
  ⟨0, 0, 1, 1, 3, 2, 4, 1119092736, 0, 1106247680, 1, 2, 1093664768,
   1101004800, 4, 1, []⟩

/-- The intentional-error sampler of the reference test: its `pNext` chain
links a YCbCr-conversion record (structure type 1000156000) followed by a
reduction-mode record (structure type 1000218000). -/
def ycbcrSampler : SamplerCreateInfo :=
  ⟨0, 0, 1, 1, 3, 2, 4, 1119092736, 0, 1106247680, 1, 2, 1093664768,
   1101004800, 4, 1, [1000156000, 1000218000]⟩

/-- Witness for `record_sampler_rejects_unknown_extension`: the reference
test's YCbCr/reduction chain is rejected and the recorder is returned
unchanged. -/
theorem record_sampler_rejects_unknown_extension_witness :
    record_sampler (emptyRecorder SamplerCreateInfo) 102 ycbcrSampler
      = (false, emptyRecorder SamplerCreateInfo) :=
  record_sampler_rejects_unknown_extension (emptyRecorder SamplerCreateInfo) 102
    1000156000 ycbcrSampler (by decide) (by decide)

theorem internHas_internInsert_self {Desc : Type} (tbl : InternTable Desc)
    (h : Nat) (d : Desc) : internHas (internInsert tbl h d) h = true := by
  rw [internHas_iff]
  unfold internInsert
  by_cases hc : internHas tbl h = true
  · rw [if_pos hc]
    exact (internHas_iff tbl h).mp hc
  · rw [if_neg hc]
    exact ⟨d, List.mem_append_right _ (List.mem_singleton_self _)⟩

/-- Modelled from the spec: the kind-generic `record_X(handle, descriptor)`
call of spec section 4.2, returning the C++ `bool` together with the
(unchanged, on failure) recorder; the integer handle does not participate in
hashing or interning of the descriptor itself.  `record_sampler` is its
sampler instance. -/
def record_call {Desc : Type} (hasher : ResourceKind → Desc → Option Nat)
    (r : Recorder Desc) (k : ResourceKind) (_handle : Nat) (d : Desc) :
    Bool × Recorder Desc :=
  match recordRaw hasher r k d with
  | none => (false, r)
  | some (_, r2) => (true, r2)

/-- Claim C6: for every resource kind, re-recording an identical `(handle, descriptor)` pair is a
no-op — the call succeeds, the intern table size is unchanged and the first
inserted canonical descriptor is retained — while the two test samplers
differing only in `minLod` (10.0 versus 11.0) hash differently and occupy
two distinct intern-table entries. -/
theorem sampler_dedup_and_field_sensitivity :
    (∀ (Desc : Type) (hasher : ResourceKind → Desc → Option Nat)
        (r r1 r2 : Recorder Desc) (k : ResourceKind) (hd : Nat) (d : Desc)
        (b : Bool),
      record_call hasher r k hd d = (true, r1) →
      record_call hasher r1 k hd d = (b, r2) →
      b = true ∧ r2 = r1 ∧ (r2 k).length = (r1 k).length)
    ∧ compute_hash_sampler sampler10 ≠ compute_hash_sampler sampler11
    ∧ ((record_sampler (record_sampler (emptyRecorder SamplerCreateInfo) 100
          sampler10).2 101 sampler11).2 ResourceKind.sampler).length = 2 := by
  refine ⟨?_, by decide, by decide⟩
  intro Desc hasher r r1 r2 k hd d b h1 h2
  cases hh : hasher k d with
  | none =>
    rw [record_call, recordRaw] at h1
    simp only [hh] at h1
    exact absurd (congrArg Prod.fst h1) Bool.false_ne_true
  | some h =>
    simp only [record_call, recordRaw, hh] at h1 h2
    injection h1 with hb1 hr1
    injection h2 with hb2 hr2
    have hkey : internHas (r1 k) h = true := by
      rw [← hr1, updateTable_apply_self]
      exact internHas_internInsert_self _ _ _
    have hins : internInsert (r1 k) h d = r1 k := by
      rw [internInsert, if_pos hkey]
    rw [hins, updateTable_self] at hr2
    exact ⟨hb2.symm, hr2.symm, by rw [hr2]⟩

/-- Witness for `sampler_dedup_and_field_sensitivity`: at the sampler
instance, re-recording `sampler10` under handle 100 succeeds and leaves the
recorder and its sampler-table size unchanged. -/
theorem sampler_dedup_and_field_sensitivity_witness :
    (record_call samplerHasher (record_call samplerHasher
        (emptyRecorder SamplerCreateInfo) ResourceKind.sampler 100 sampler10).2
        ResourceKind.sampler 100 sampler10).1 = true
    ∧ (record_call samplerHasher (record_call samplerHasher
        (emptyRecorder SamplerCreateInfo) ResourceKind.sampler 100 sampler10).2
        ResourceKind.sampler 100 sampler10).2
      = (record_call samplerHasher (emptyRecorder SamplerCreateInfo)
          ResourceKind.sampler 100 sampler10).2
    ∧ ((record_call samplerHasher (record_call samplerHasher
        (emptyRecorder SamplerCreateInfo) ResourceKind.sampler 100 sampler10).2
        ResourceKind.sampler 100 sampler10).2 ResourceKind.sampler).length
      = ((record_call samplerHasher (emptyRecorder SamplerCreateInfo)
          ResourceKind.sampler 100 sampler10).2 ResourceKind.sampler).length :=
  sampler_dedup_and_field_sensitivity.1 SamplerCreateInfo samplerHasher
    (emptyRecorder SamplerCreateInfo)
    ((record_call samplerHasher (emptyRecorder SamplerCreateInfo)
        ResourceKind.sampler 100 sampler10).2)
    ((record_call samplerHasher (record_call samplerHasher
        (emptyRecorder SamplerCreateInfo) ResourceKind.sampler 100 sampler10).2
        ResourceKind.sampler 100 sampler10).2)
    ResourceKind.sampler 100 sampler10
    ((record_call samplerHasher (record_call samplerHasher
        (emptyRecorder SamplerCreateInfo) ResourceKind.sampler 100 sampler10).2
        ResourceKind.sampler 100 sampler10).1)
    rfl rfl

/-! ## Stream archive (claims C3 and C8)

The archive implementation is not among the provided sources; it is modelled
from spec section 4.4 at the level of its observable operations, with the
reference test (`test_database`) pinning the read-back behaviour.  The
deflate codec and the crc32 function are external collaborators and are
parameters of the model; payload bytes are `List Nat`.
-/

/-- The stored form of one archive record: the on-disk payload (compressed
when written with `COMPRESS`), the original payload size and flags, and the
stored crc32 (0 when `COMPUTE_CHECKSUM` was absent). -/
structure StoredBlob where
  stored : List Nat
  uncompressedSize : Nat
  compressed : Bool
  checksummed : Bool
  crc : Nat
deriving DecidableEq

/-- Modelled from the spec: the single-file stream archive as the sequence of
its records, indexed by `(kind, hash)`; "within an archive, (kind, hash) is
unique". -/
structure StreamArchive where
  entries : List (ResourceKind × Nat × StoredBlob)
deriving DecidableEq

def emptyArchive : StreamArchive := ⟨[]⟩

/-- The compression and checksum collaborators (deflate and crc32 in the
implementation): parameters of the model. -/
structure Codec where
  compress : List Nat → List Nat
  decompress : List Nat → List Nat
  crc32 : List Nat → Nat

/-- The `PAYLOAD_WRITE_*` flag bits. -/
structure WriteFlags where
  compressBit : Bool
  checksumBit : Bool
  rawBit : Bool
deriving DecidableEq

def has_entry (a : StreamArchive) (k : ResourceKind) (h : Nat) : Bool :=
  a.entries.any fun e => decide (e.1 = k) && decide (e.2.1 = h)

def findEntry (a : StreamArchive) (k : ResourceKind) (h : Nat) :
    Option StoredBlob :=
  (a.entries.find? fun e => decide (e.1 = k) && decide (e.2.1 = h)).map
    fun e => e.2.2

/-- The raw on-disk bytes of a record: the header fields (uncompressed size,
flag bits, crc) followed by the stored payload — the form handed out and
accepted under `RAW_FOSSILIZE_DB`. -/
def encodeBlob (b : StoredBlob) : List Nat :=
  b.uncompressedSize :: (if b.compressed then 1 else 0)
    :: (if b.checksummed then 1 else 0) :: b.crc :: b.stored

def decodeBlob (l : List Nat) : Option StoredBlob :=
  match l with
  | us :: cf :: kf :: crc :: rest =>
    some ⟨rest, us, decide (cf = 1), decide (kf = 1), crc⟩
  | _ => none

/-- Modelled from the spec: `write_entry(kind, hash, bytes, flags)`.  A
duplicate `(kind, hash)` is suppressed (success, archive unchanged); with
`RAW_FOSSILIZE_DB` the bytes are already in final on-disk form and are stored
verbatim; otherwise the payload is compressed when `COMPRESS` is set and the
crc32 of the stored bytes is recorded when `COMPUTE_CHECKSUM` is set. -/
def write_entry (c : Codec) (a : StreamArchive) (k : ResourceKind) (h : Nat)
    (b : List Nat) (f : WriteFlags) : Option StreamArchive :=
  if has_entry a k h then some a
  else if f.rawBit then
    match decodeBlob b with
    | none => none
    | some blob => some ⟨a.entries ++ [(k, h, blob)]⟩
  else
    some ⟨a.entries ++ [(k, h,
      ⟨(if f.compressBit then c.compress b else b), b.length, f.compressBit,
        f.checksumBit,
        if f.checksumBit then c.crc32 (if f.compressBit then c.compress b else b)
        else 0⟩)]⟩

/-- Modelled from the spec: `read_entry(kind, hash, flags)`.  With
`RAW_FOSSILIZE_DB` the stored bytes are returned untouched (header included);
with default flags the checksum is verified when present and the payload is
decompressed when it was stored compressed — the reference test reads
compressed entries back with default flags and compares against the original
plaintext. -/
def read_entry (c : Codec) (a : StreamArchive) (k : ResourceKind) (h : Nat)
    (raw : Bool) : Option (List Nat) :=
  match findEntry a k h with
  | none => none
  | some blob =>
    if raw then some (encodeBlob blob)
    else if blob.checksummed && decide (c.crc32 blob.stored ≠ blob.crc) then none
    else if blob.compressed then some (c.decompress blob.stored)
    else some blob.stored

inductive DatabaseMode where
  | OverWrite
  | Append
  | ReadOnly
deriving DecidableEq

/-- Modelled from the spec: `prepare()` of a stream archive over an existing
on-disk file — `OverWrite` truncates, `Append` and `ReadOnly` load the
records already present (the absent-file failure path is not modelled). -/
def prepare (m : DatabaseMode) (file : StreamArchive) : StreamArchive :=
  match m with
  | DatabaseMode.OverWrite => ⟨[]⟩
  | DatabaseMode.Append => file
  | DatabaseMode.ReadOnly => file

theorem decodeBlob_encodeBlob (b : StoredBlob) :
    decodeBlob (encodeBlob b) = some b := by
  have hx : ∀ (x : Bool), decide ((if x then (1 : Nat) else 0) = 1) = x := by
    intro x
    cases x <;> simp
  rw [encodeBlob, decodeBlob, hx, hx]

theorem find_append_new (es : List (ResourceKind × Nat × StoredBlob))
    (k : ResourceKind) (h : Nat) (blob : StoredBlob)
    (hnew : es.any (fun e => decide (e.1 = k) && decide (e.2.1 = h)) = false) :
    (es ++ [(k, h, blob)]).find? (fun e => decide (e.1 = k) && decide (e.2.1 = h))
      = some (k, h, blob) := by
  induction es with
  | nil => simp
  | cons e t ih =>
    rw [List.any_cons, Bool.or_eq_false_iff] at hnew
    rw [List.cons_append, List.find?_cons_of_neg]
    · exact ih hnew.2
    · rw [hnew.1]
      exact Bool.false_ne_true

theorem findEntry_append_new (a : StreamArchive)
    (k : ResourceKind) (h : Nat) (blob : StoredBlob)
    (hnew : has_entry a k h = false) :
    findEntry ⟨a.entries ++ [(k, h, blob)]⟩ k h = some blob := by
  rw [findEntry]
  show ((a.entries ++ [(k, h, blob)]).find?
      (fun e => decide (e.1 = k) && decide (e.2.1 = h))).map (fun e => e.2.2) = _
  rw [find_append_new a.entries k h blob hnew]
  rfl

theorem has_entry_append_self (a : StreamArchive)
    (k : ResourceKind) (h : Nat) (blob : StoredBlob) :
    has_entry ⟨a.entries ++ [(k, h, blob)]⟩ k h = true := by
  rw [has_entry]
  show (a.entries ++ [(k, h, blob)]).any
      (fun e => decide (e.1 = k) && decide (e.2.1 = h)) = true
  rw [List.any_append]
  simp

theorem read_entry_append_blob (c : Codec) (a : StreamArchive)
    (k : ResourceKind) (h : Nat) (blob : StoredBlob)
    (hfresh : has_entry a k h = false)
    (hcrc : blob.checksummed = true → c.crc32 blob.stored = blob.crc) :
    read_entry c ⟨a.entries ++ [(k, h, blob)]⟩ k h false
      = if blob.compressed then some (c.decompress blob.stored)
        else some blob.stored := by
  rw [read_entry, findEntry_append_new a k h blob hfresh]
  have hchk : (blob.checksummed && decide (c.crc32 blob.stored ≠ blob.crc))
      = false := by
    cases hk : blob.checksummed
    · rfl
    · simp [hcrc hk]
  simp only [Bool.false_eq_true, if_false, hchk]

/-- Claim C3 (amended): a successful non-raw `write_entry(k, h, b, f)` of a
fresh `(k, h)` makes every subsequent `has_entry(k, h)` return true, and
`read_entry(k, h)` with default flags returns bytes byte-identical to `b`
whether or not `f` included `COMPRESS` — the stored payload is the
compressed form, which `read_entry` decompresses before returning — both in
the same session and after reopening the archive in `Append` or `ReadOnly`
mode. -/
theorem archive_write_read_roundtrip :
    ∀ (c : Codec) (a a2 : StreamArchive) (k : ResourceKind) (h : Nat)
      (b : List Nat) (f : WriteFlags),
      (∀ x, c.decompress (c.compress x) = x) →
      f.rawBit = false →
      has_entry a k h = false →
      write_entry c a k h b f = some a2 →
      (has_entry a2 k h = true
       ∧ read_entry c a2 k h false = some b
       ∧ has_entry (prepare DatabaseMode.Append a2) k h = true
       ∧ read_entry c (prepare DatabaseMode.Append a2) k h false = some b
       ∧ has_entry (prepare DatabaseMode.ReadOnly a2) k h = true
       ∧ read_entry c (prepare DatabaseMode.ReadOnly a2) k h false = some b) := by
  intro c a a2 k h b f hinv hraw hfresh hw
  have hfneg : ¬ has_entry a k h = true := by
    rw [hfresh]
    exact Bool.false_ne_true
  rw [write_entry, if_neg hfneg, hraw] at hw
  simp only [Bool.false_eq_true, if_false] at hw
  injection hw with hw
  have h1 : has_entry a2 k h = true := by
    rw [← hw]
    exact has_entry_append_self a k h _
  have h2 : read_entry c a2 k h false = some b := by
    rw [← hw, read_entry_append_blob c a k h _ hfresh]
    · cases fc : f.compressBit
      · simp
      · simp [hinv b]
    · intro hk
      dsimp only at hk ⊢
      rw [hk, if_pos rfl]
  exact ⟨h1, h2, h1, h2, h1, h2⟩

/-- A concrete codec instance with a genuine (non-identity) invertible
compression — `compress` prepends a byte, `decompress` drops it — and a
checksum summing the stored bytes. -/
def consCodec : Codec :=
  ⟨fun l => 0 :: l, fun l => l.drop 1, fun l => l.sum⟩

/-- The archive produced by writing `(SAMPLER, 1, [1, 2, 3])` with
`COMPRESS | COMPUTE_CHECKSUM` under `consCodec`: the stored payload is the
compressed `[0, 1, 2, 3]` with crc 6. -/
def cexArchive : StreamArchive :=
  ⟨[(ResourceKind.sampler, 1, ⟨[0, 1, 2, 3], 3, true, true, 6⟩)]⟩

/-- Witness for `archive_write_read_roundtrip`: the compressed, checksummed
write of `[1, 2, 3]` reads back byte-identical, also after reopening. -/
theorem archive_write_read_roundtrip_witness :
    has_entry cexArchive ResourceKind.sampler 1 = true
    ∧ read_entry consCodec cexArchive ResourceKind.sampler 1 false = some [1, 2, 3]
    ∧ has_entry (prepare DatabaseMode.Append cexArchive) ResourceKind.sampler 1 = true
    ∧ read_entry consCodec (prepare DatabaseMode.Append cexArchive)
        ResourceKind.sampler 1 false = some [1, 2, 3]
    ∧ has_entry (prepare DatabaseMode.ReadOnly cexArchive) ResourceKind.sampler 1 = true
    ∧ read_entry consCodec (prepare DatabaseMode.ReadOnly cexArchive)
        ResourceKind.sampler 1 false = some [1, 2, 3] :=
  archive_write_read_roundtrip consCodec emptyArchive cexArchive
    ResourceKind.sampler 1 [1, 2, 3] ⟨true, true, false⟩
    (fun _ => rfl) rfl (by decide) (by decide)

/-- Counterexample to claim C3 as stated: under `consCodec`, the entry
written with `COMPRESS` reads back (default flags) as the original plaintext
`[1, 2, 3]` itself — not as "bytes that decompress to `b`", since
`decompress [1, 2, 3] = [2, 3] ≠ [1, 2, 3]`; `read_entry` decompresses
internally, exactly as the reference test expects. -/
theorem archive_compressed_read_cex :
    write_entry consCodec emptyArchive ResourceKind.sampler 1 [1, 2, 3]
        ⟨true, true, false⟩ = some cexArchive
    ∧ read_entry consCodec cexArchive ResourceKind.sampler 1 false = some [1, 2, 3]
    ∧ consCodec.decompress [1, 2, 3] ≠ [1, 2, 3] :=
  ⟨by decide, by decide, by decide⟩

/-- Claim C8: reading any entry with `RAW_FOSSILIZE_DB`, writing the
resulting bytes into another archive with `RAW_FOSSILIZE_DB`, and reading the
destination back with default flags yields the original plaintext payload,
whatever combination of `COMPRESS` / `COMPUTE_CHECKSUM` the source entry was
written with. -/
theorem read_entry_append_blob_raw (c : Codec) (a : StreamArchive)
    (k : ResourceKind) (h : Nat) (blob : StoredBlob)
    (hfresh : has_entry a k h = false) :
    read_entry c ⟨a.entries ++ [(k, h, blob)]⟩ k h true
      = some (encodeBlob blob) := by
  rw [read_entry, findEntry_append_new a k h blob hfresh]
  rfl

theorem raw_copy_roundtrip :
    ∀ (c : Codec) (a a2 t t2 : StreamArchive) (k : ResourceKind) (h : Nat)
      (b rawBytes : List Nat) (f : WriteFlags),
      (∀ x, c.decompress (c.compress x) = x) →
      f.rawBit = false →
      has_entry a k h = false →
      write_entry c a k h b f = some a2 →
      read_entry c a2 k h true = some rawBytes →
      has_entry t k h = false →
      write_entry c t k h rawBytes ⟨false, false, true⟩ = some t2 →
      read_entry c t2 k h false = some b := by
  intro c a a2 t t2 k h b rawBytes f hinv hraw hfreshA hw hread hfreshT hw2
  have hfnegA : ¬ has_entry a k h = true := by
    rw [hfreshA]
    exact Bool.false_ne_true
  rw [write_entry, if_neg hfnegA, hraw] at hw
  simp only [Bool.false_eq_true, if_false] at hw
  injection hw with hw
  rw [← hw, read_entry_append_blob_raw c a k h _ hfreshA] at hread
  injection hread with hread
  have hfnegT : ¬ has_entry t k h = true := by
    rw [hfreshT]
    exact Bool.false_ne_true
  rw [write_entry, if_neg hfnegT] at hw2
  simp only [← hread, decodeBlob_encodeBlob, if_true] at hw2
  injection hw2 with hw2
  rw [← hw2, read_entry_append_blob c t k h _ hfreshT]
  · cases fc : f.compressBit
    · simp
    · simp [hinv b]
  · intro hk
    dsimp only at hk ⊢
    rw [hk, if_pos rfl]

/-- Witness for `raw_copy_roundtrip`: the compressed, checksummed entry of
`cexArchive` is raw-copied into a fresh archive and reads back as the
original `[1, 2, 3]`. -/
theorem raw_copy_roundtrip_witness :
    read_entry consCodec cexArchive ResourceKind.sampler 1 false
      = some [1, 2, 3] :=
  raw_copy_roundtrip consCodec emptyArchive cexArchive emptyArchive cexArchive
    ResourceKind.sampler 1 [1, 2, 3] [3, 1, 1, 6, 0, 1, 2, 3]
    ⟨true, true, false⟩ (fun _ => rfl) rfl (by decide) (by decide) (by decide)
    (by decide) (by decide)

/-! ## Concurrent archive (claims C4 and C7)

The concurrent database implementation is not among the provided sources; it
is modelled from spec section 4.5, with `test_concurrent_database_extra_paths`
pinning the observable behaviour.  The read-only shards list holds the extra
paths followed by the `P.foz` shard; the lazily created per-writer bucket
file is modelled by the `bucketExists` flag together with the bucket's
records.
-/

structure ConcurrentDB where
  shards : List StreamArchive
  bucketExists : Bool
  bucket : StreamArchive
deriving DecidableEq

def shardsHave (shards : List StreamArchive) (k : ResourceKind) (h : Nat) : Bool :=
  shards.any fun s => has_entry s k h

/-- One concurrent write request: kind, hash, payload, flags. -/
abbrev WriteReq : Type := ResourceKind × Nat × List Nat × WriteFlags

/-- Modelled from the spec: concurrent `write_entry` — suppressed when any
read-only shard already holds `(kind, hash)`, suppressed when the writer's
own bucket holds it, otherwise the bucket file is created on first real
write and the record is appended. -/
def concurrent_write_entry (c : Codec) (db : ConcurrentDB) (w : WriteReq) :
    Option ConcurrentDB :=
  if shardsHave db.shards w.1 w.2.1 then some db
  else if has_entry db.bucket w.1 w.2.1 then some db
  else
    match write_entry c db.bucket w.1 w.2.1 w.2.2.1 w.2.2.2 with
    | none => none
    | some bucket2 => some ⟨db.shards, true, bucket2⟩

def processWrites (c : Codec) (db : ConcurrentDB) :
    List WriteReq → Option ConcurrentDB
  | [] => some db
  | w :: t =>
    match concurrent_write_entry c db w with
    | none => none
    | some db2 => processWrites c db2 t

theorem processWrites_bucketExists_mono (c : Codec) :
    ∀ (ws : List WriteReq) (db dbf : ConcurrentDB),
      processWrites c db ws = some dbf → db.bucketExists = true →
      dbf.bucketExists = true := by
  intro ws
  induction ws with
  | nil =>
    intro db dbf hp htrue
    rw [processWrites] at hp
    injection hp with hp
    rw [← hp]
    exact htrue
  | cons w t ih =>
    intro db dbf hp htrue
    rw [processWrites] at hp
    cases hcw : concurrent_write_entry c db w with
    | none =>
      rw [hcw] at hp
      exact absurd hp (by simp)
    | some db2 =>
      rw [hcw] at hp
      dsimp only at hp
      apply ih db2 dbf hp
      rw [concurrent_write_entry] at hcw
      split_ifs at hcw with h1 h2
      · injection hcw with hcw
        rw [← hcw]
        exact htrue
      · injection hcw with hcw
        rw [← hcw]
        exact htrue
      · cases hwr : write_entry c db.bucket w.1 w.2.1 w.2.2.1 w.2.2.2 with
        | none =>
          rw [hwr] at hcw
          exact absurd hcw (by simp)
        | some b2 =>
          rw [hwr] at hcw
          injection hcw with hcw
          rw [← hcw]

theorem processWrites_bucket_iff (c : Codec) :
    ∀ (ws : List WriteReq) (db dbf : ConcurrentDB),
      processWrites c db ws = some dbf →
      db.bucketExists = false → db.bucket = emptyArchive →
      (dbf.bucketExists = true ↔
        ∃ w ∈ ws, shardsHave db.shards w.1 w.2.1 = false) := by
  intro ws
  induction ws with
  | nil =>
    intro db dbf hp hb _
    rw [processWrites] at hp
    injection hp with hp
    rw [← hp, hb]
    simp
  | cons w t ih =>
    intro db dbf hp hb hbe
    rw [processWrites] at hp
    by_cases hsh : shardsHave db.shards w.1 w.2.1 = true
    · have hcw : concurrent_write_entry c db w = some db := by
        rw [concurrent_write_entry, if_pos hsh]
      rw [hcw] at hp
      dsimp only at hp
      rw [ih db dbf hp hb hbe]
      constructor
      · rintro ⟨w2, hmem, hw2⟩
        exact ⟨w2, List.mem_cons_of_mem _ hmem, hw2⟩
      · rintro ⟨w2, hmem, hw2⟩
        rcases List.mem_cons.mp hmem with he | hmem2
        · rw [he] at hw2
          rw [hsh] at hw2
          exact absurd hw2 (by simp)
        · exact ⟨w2, hmem2, hw2⟩
    · have hbuck : ¬ has_entry db.bucket w.1 w.2.1 = true := by
        rw [hbe]
        simp [has_entry, emptyArchive]
      cases hwr : write_entry c db.bucket w.1 w.2.1 w.2.2.1 w.2.2.2 with
      | none =>
        have hcw : concurrent_write_entry c db w = none := by
          rw [concurrent_write_entry, if_neg hsh, if_neg hbuck, hwr]
        rw [hcw] at hp
        exact absurd hp (by simp)
      | some b2 =>
        have hcw : concurrent_write_entry c db w
            = some ⟨db.shards, true, b2⟩ := by
          rw [concurrent_write_entry, if_neg hsh, if_neg hbuck, hwr]
        rw [hcw] at hp
        dsimp only at hp
        have hmono := processWrites_bucketExists_mono c t ⟨db.shards, true, b2⟩
          dbf hp rfl
        rw [hmono]
        simp only [true_iff]
        exact ⟨w, List.mem_cons_self _ _, by simpa using hsh⟩

/-- Claim C4: starting from a freshly prepared concurrent writer (no bucket
file, empty bucket), after any sequence of writes the bucket file exists on
disk if and only if at least one write concerned a `(kind, hash)` pair absent
from every read-only shard (extra paths and `P.foz`) — equivalently, a writer
whose every write is such a duplicate never creates its bucket file. -/
theorem bucket_iff_nondup :
    ∀ (c : Codec) (shards : List StreamArchive) (ws : List WriteReq)
      (dbf : ConcurrentDB),
      processWrites c ⟨shards, false, emptyArchive⟩ ws = some dbf →
      (dbf.bucketExists = true ↔ ∃ w ∈ ws, shardsHave shards w.1 w.2.1 = false) :=
  fun c shards ws dbf hp =>
    processWrites_bucket_iff c ws ⟨shards, false, emptyArchive⟩ dbf hp rfl rfl

/-- The stored form of the `[1, 2, 3]` blob written with no flags. -/
def plainBlob : StoredBlob := ⟨[1, 2, 3], 3, false, false, 0⟩

/-- The three per-writer buckets of the concurrent scenario: writer A wrote
sampler hashes {2, 3}, writer B {3, 4}, writer C {1, 1} (the duplicate was
suppressed inside C's own bucket). -/
def shardA : StreamArchive :=
  ⟨[(ResourceKind.sampler, 2, plainBlob), (ResourceKind.sampler, 3, plainBlob)]⟩

def shardB : StreamArchive :=
  ⟨[(ResourceKind.sampler, 3, plainBlob), (ResourceKind.sampler, 4, plainBlob)]⟩

def shardC : StreamArchive := ⟨[(ResourceKind.sampler, 1, plainBlob)]⟩

def scenarioShards : List StreamArchive := [shardA, shardB, shardC]

/-- Writer D's requests: `(SAMPLER, 4)` — a duplicate of shard B — then
`(DSL, 4)` — fresh. -/
def wsD : List WriteReq :=
  [(ResourceKind.sampler, 4, [1, 2, 3], ⟨false, false, false⟩),
   (ResourceKind.descriptorSetLayout, 4, [1, 2, 3], ⟨false, false, false⟩)]

def dbfD : ConcurrentDB :=
  ⟨scenarioShards, true, ⟨[(ResourceKind.descriptorSetLayout, 4, plainBlob)]⟩⟩

/-- Witness for `bucket_iff_nondup`: writer D's duplicate `(SAMPLER, 4)`
does not create the bucket, its fresh `(DSL, 4)` does. -/
theorem bucket_iff_nondup_witness :
    processWrites consCodec ⟨scenarioShards, false, emptyArchive⟩ wsD = some dbfD
    ∧ dbfD.bucketExists = true :=
  ⟨by decide,
    (bucket_iff_nondup consCodec scenarioShards wsD dbfD (by decide)).mpr
      ⟨(ResourceKind.descriptorSetLayout, 4, [1, 2, 3], ⟨false, false, false⟩),
        by decide, by decide⟩⟩

/-! ### Hash-list enumeration (claim C7) -/

def hashesOfKind (a : StreamArchive) (k : ResourceKind) : List Nat :=
  (a.entries.filter fun e => decide (e.1 = k)).map fun e => e.2.1

def dedupStep (acc : List Nat) (h : Nat) : List Nat :=
  if h ∈ acc then acc else acc ++ [h]

/-- Collapse duplicates, keeping the first occurrence of each hash. -/
def dedupFirst (l : List Nat) : List Nat := l.foldl dedupStep []

/-- Modelled from the spec: `get_hash_list_for_resource_tag` on a concurrent
archive — the union over the read-only shards (extra paths, then `P.foz`)
and the writer's own bucket, with duplicates across shards collapsed. -/
def get_hash_list_for_kind (db : ConcurrentDB) (k : ResourceKind) : List Nat :=
  dedupFirst ((db.shards.map fun s => hashesOfKind s k).flatten
    ++ hashesOfKind db.bucket k)

theorem mem_foldl_dedup (l : List Nat) :
    ∀ (acc : List Nat) (x : Nat),
      x ∈ l.foldl dedupStep acc ↔ x ∈ acc ∨ x ∈ l := by
  induction l with
  | nil =>
    intro acc x
    simp
  | cons a t ih =>
    intro acc x
    rw [List.foldl_cons, ih]
    unfold dedupStep
    by_cases hc : a ∈ acc
    · rw [if_pos hc]
      simp only [List.mem_cons]
      constructor
      · rintro (hx | hx)
        · exact Or.inl hx
        · exact Or.inr (Or.inr hx)
      · rintro (hx | hx | hx)
        · exact Or.inl hx
        · exact Or.inl (hx ▸ hc)
        · exact Or.inr hx
    · rw [if_neg hc]
      simp only [List.mem_append, List.mem_singleton, List.mem_cons,
        List.not_mem_nil, or_false]
      constructor
      · rintro ((hx | hx) | hx)
        · exact Or.inl hx
        · exact Or.inr (Or.inl hx)
        · exact Or.inr (Or.inr hx)
      · rintro (hx | hx | hx)
        · exact Or.inl (Or.inl hx)
        · exact Or.inl (Or.inr hx)
        · exact Or.inr hx

theorem nodup_foldl_dedup (l : List Nat) :
    ∀ (acc : List Nat), acc.Nodup → (l.foldl dedupStep acc).Nodup := by
  induction l with
  | nil => exact fun acc h => h
  | cons a t ih =>
    intro acc hnd
    rw [List.foldl_cons]
    apply ih
    unfold dedupStep
    by_cases hc : a ∈ acc
    · rw [if_pos hc]
      exact hnd
    · rw [if_neg hc]
      rw [List.nodup_append]
      exact ⟨hnd, List.nodup_singleton _,
        fun x hx hx2 => hc ((List.mem_singleton.mp hx2) ▸ hx)⟩

/-- Claim C7: `get_hash_list_for_kind` returns exactly the union of the
hashes of that kind across the read-only shards and the writer's own bucket,
each hash exactly once; for the three-bucket scenario with sampler hashes
{2, 3}, {3, 4}, {1, 1} the result is exactly {1, 2, 3, 4} with count 4. -/
theorem hash_list_union_dedup :
    (∀ (db : ConcurrentDB) (k : ResourceKind) (h : Nat),
        (h ∈ get_hash_list_for_kind db k ↔
          (∃ s ∈ db.shards, h ∈ hashesOfKind s k) ∨ h ∈ hashesOfKind db.bucket k)
        ∧ (get_hash_list_for_kind db k).Nodup)
    ∧ get_hash_list_for_kind ⟨scenarioShards, false, emptyArchive⟩
        ResourceKind.sampler = [2, 3, 4, 1]
    ∧ (get_hash_list_for_kind ⟨scenarioShards, false, emptyArchive⟩
        ResourceKind.sampler).length = 4 := by
  refine ⟨?_, by decide, by decide⟩
  intro db k h
  constructor
  · rw [get_hash_list_for_kind, dedupFirst, mem_foldl_dedup]
    simp only [List.not_mem_nil, false_or, List.mem_append, List.mem_flatten,
      List.mem_map]
    constructor
    · rintro (⟨l, ⟨s, hs, hl⟩, hx⟩ | hx)
      · exact Or.inl ⟨s, hs, hl ▸ hx⟩
      · exact Or.inr hx
    · rintro (⟨s, hs, hx⟩ | hx)
      · exact Or.inl ⟨hashesOfKind s k, ⟨s, hs, rfl⟩, hx⟩
      · exact Or.inr hx
  · exact nodup_foldl_dedup _ [] List.nodup_nil
